import Mathlib

/-!
Verification of the amendment-document parser of this repository
(`utils.py`: `parse_xml_tags`, `process_table_cell`, `parse_amendments`,
`remove_unnec_tags`).  The Python functions are embedded shallowly:
strings become `String`/`List Char`, regex scans become explicit scanning
functions with the exact leftmost-match semantics of the patterns used by
the source, Python `dict`s become ordered association lists, and the two
exceptions the finalisation code can raise (a `KeyError` on a missing
`RepeatBlock-By` key and an `AttributeError` from calling `replace` on a
list value) become an `Except` error type, together with the `IndexError`
that ragged table column access would raise.
-/

namespace Amend

/-! ## Python string primitives -/

/-- The whitespace set of Python's default `str.strip()` / regex `\s`
(ASCII part). -/
def isPyWs (c : Char) : Bool :=
  c = ' ' || c = '\t' || c = '\n' || c = '\r' || c = '\x0b' || c = '\x0c'

/-- Python `str.strip()` on a character list. -/
def pyStripL (xs : List Char) : List Char :=
  ((xs.dropWhile isPyWs).reverse.dropWhile isPyWs).reverse

/-- Python `str.strip()`. -/
def pyStrip (s : String) : String := ⟨pyStripL s.data⟩

/-- Python `sep.join(list)`. -/
def joinSep (sep : String) : List String → String
  | [] => ""
  | [x] => x
  | x :: y :: rest => x ++ sep ++ joinSep sep (y :: rest)

/-- Python `str.split(',')` on a character list: split at every comma. -/
def splitCommaL : List Char → List (List Char)
  | [] => [[]]
  | c :: cs =>
    if c = ',' then [] :: splitCommaL cs
    else
      match splitCommaL cs with
      | [] => [[c]]
      | g :: gs => (c :: g) :: gs

/-- Python `str.split(',')`. -/
def splitComma (s : String) : List String := (splitCommaL s.data).map (fun l => ⟨l⟩)

/-- Python `int()` on a digit string (leading zeros allowed). -/
def digitsToNat (ds : List Char) : Nat := ds.foldl (fun a c => a * 10 + (c.toNat - 48)) 0

/-- Split a character list at the first `'>'`: returns the part before it and
the part after it.  This is the unique way the greedy group `([^>]+)` of the
tag regex `<([^>]+)>(.*?)</\1>` can match after an opening `'<'`. -/
def takeUntilGt : List Char → Option (List Char × List Char)
  | [] => none
  | c :: cs =>
    if c = '>' then some ([], cs)
    else
      match takeUntilGt cs with
      | some pr => some (c :: pr.1, pr.2)
      | none => none

/-- Split a character list at the first occurrence of `pat`: returns the part
before the occurrence and the part after it.  This is the semantics of the
non-greedy group `(.*?)` followed by a literal, and of Python's
`str.replace` / leftmost `re.search` on a literal pattern. -/
def findSplit (pat : List Char) : List Char → Option (List Char × List Char)
  | [] => if pat.isPrefixOf ([] : List Char) then some ([], []) else none
  | c :: cs =>
    if pat.isPrefixOf (c :: cs) then some ([], (c :: cs).drop pat.length)
    else
      match findSplit pat cs with
      | some pr => some (c :: pr.1, pr.2)
      | none => none

/-- Fuelled worker for `pyReplace`: delete the occurrences of `pat` left to
right, non-overlapping, continuing after each deleted occurrence. -/
def replaceF (pat : List Char) : Nat → List Char → List Char
  | 0, xs => xs
  | f + 1, xs =>
    match findSplit pat xs with
    | none => xs
    | some pr => pr.1 ++ replaceF pat f pr.2

/-- Python `s.replace(pat, '')` (the source only ever replaces by the empty
string).  One character is consumed per deleted occurrence at least, so
`s.length` fuel suffices. -/
def pyReplace (s pat : String) : String := ⟨replaceF pat.data s.data.length s.data⟩

/-! ## The tag scanner (`parse_xml_tags`)

The Python pattern is `<([^>]+)>(.*?)</\1>` with `re.DOTALL`, scanned by
`finditer` (leftmost, non-overlapping matches).  At a given start position a
match exists iff the position holds `'<'`, there is a later `'>'` making a
nonempty group 1 (forced: the group cannot contain `'>'`), and the literal
`</` ++ group1 ++ `>` occurs in the remainder; group 2 is everything up to
the first such occurrence.  On failure the scan advances one character. -/

/-- Try a match of the tag pattern exactly at the current position: returns
`(group1, group2, rest)` where `rest` is the text after the full match. -/
def tryAt : List Char → Option (List Char × List Char × List Char)
  | [] => none
  | c :: cs =>
    if c = '<' then
      match takeUntilGt cs with
      | some pr =>
        if pr.1 = [] then none
        else
          match findSplit ('<' :: '/' :: (pr.1 ++ ['>'])) pr.2 with
          | some qr => some (pr.1, qr.1, qr.2)
          | none => none
      | none => none
    else none

/-- Find the first tag-pair match at or after the current position. -/
def skipScan : List Char → Option (List Char × List Char × List Char)
  | [] => none
  | c :: cs =>
    match tryAt (c :: cs) with
    | some t => some t
    | none => skipScan cs

/-- Fuelled iteration of `skipScan`; each match strictly shrinks the text, so
`xs.length` fuel suffices. -/
def scanTagsF : Nat → List Char → List (List Char × List Char)
  | 0, _ => []
  | f + 1, xs =>
    match skipScan xs with
    | none => []
    | some tr => (tr.1, tr.2.1) :: scanTagsF f tr.2.2

/-- All matches of the tag pattern, in order: `(group1, group2)` pairs. -/
def scanTags (xs : List Char) : List (List Char × List Char) := scanTagsF xs.length xs

def isAngle (c : Char) : Bool := c = '<' || c = '>'

/-- Python `str.strip('<>')`. -/
def stripAngleL (xs : List Char) : List Char :=
  ((xs.dropWhile isAngle).reverse.dropWhile isAngle).reverse

/-- The key computation `match.group(1).split(' ')[0].strip('<>')`: the part of the opening tag
before the first space, with surrounding angle brackets stripped. -/
def tagKeyL (g1 : List Char) : List Char := stripAngleL (g1.takeWhile (fun c => c != ' '))

/-- A value of the tag map: a scalar string, or an ordered list once a tag
name recurs. -/
inductive Val where
  | s (v : String)
  | l (vs : List String)
deriving DecidableEq

/-- An insertion-ordered string-keyed map, mirroring a Python `dict`. -/
abbrev TagMap := List (String × Val)

def lookupKey {κ α : Type} [DecidableEq κ] (k : κ) : List (κ × α) → Option α
  | [] => none
  | p :: rest => if p.1 = k then some p.2 else lookupKey k rest

/-- Python `d[k] = v`: overwrite in place if present, else append. -/
def setKey {κ α : Type} [DecidableEq κ] (k : κ) (v : α) : List (κ × α) → List (κ × α)
  | [] => [(k, v)]
  | p :: rest => if p.1 = k then (k, v) :: rest else p :: setKey k v rest

/-- Python `del d[k]` (keys are unique in maps built here). -/
def eraseKey {κ α : Type} [DecidableEq κ] (k : κ) : List (κ × α) → List (κ × α)
  | [] => []
  | p :: rest => if p.1 = k then eraseKey k rest else p :: eraseKey k rest

/-- One accumulation step of `parse_xml_tags`: a scalar on first sight of a
tag name, promotion to an ordered list on later occurrences. -/
def addTag (m : TagMap) (k v : String) : TagMap :=
  match lookupKey k m with
  | none => m ++ [(k, Val.s v)]
  | some (Val.s old) => setKey k (Val.l [old, v]) m
  | some (Val.l vs) => setKey k (Val.l (vs ++ [v])) m

/-- Embeds `utils.parse_xml_tags`. -/
def parse_xml_tags (text : String) : TagMap :=
  (scanTags text.data).foldl (fun m gv => addTag m ⟨tagKeyL gv.1⟩ ⟨pyStripL gv.2⟩) []

/-! ## The document model -/

/-- A text run: a span of text with one formatting state. -/
structure Run where
  text : String
  bold : Bool
  italic : Bool
deriving DecidableEq

/-- A table cell: paragraphs, each a list of runs. -/
abbrev Cell := List (List Run)

/-- A table column, as `python-docx` exposes it: its cells, one per row. -/
abbrev Column := List Cell

structure Table where
  cols : List Column
deriving DecidableEq

/-- A top-level block yielded by `iter_block_items`. -/
inductive Block where
  | para (text : String)
  | table (t : Table)
deriving DecidableEq

/-- The per-run body of `process_table_cell`'s loop. -/
def runStep (column_type : String) (acc : List String) (r : Run) : List String :=
  let text := pyStrip r.text
  if text = "" then acc
  else if r.bold && r.italic then
    if column_type = "original" then acc ++ ["[DEL]" ++ text ++ "[/DEL]"]
    else if column_type = "amended" then acc ++ ["[ADD]" ++ text ++ "[/ADD]"]
    else acc
  else acc ++ [text]

/-- Embeds `utils.process_table_cell`. -/
def process_table_cell (cell : Cell) (column_type : String) : String :=
  joinSep " " (cell.foldl (fun acc para => para.foldl (runStep column_type) acc) [])

/-- The four table-derived fields. -/
structure TFields where
  originalType : String
  original : String
  amendedType : String
  amended : String
deriving DecidableEq

/-- The exceptions `parse_amendments` can raise. -/
inductive PErr where
  | keyError (k : String)
  | attributeError
  | indexError
deriving DecidableEq

/-- The table branch of `parse_amendments`' walk: the guards
`len(columns) > 1` and `len(columns[0].cells) > 2`, then the four field
computations.  `columns[1].cells[1]` is the one access the guards do not
cover; on a ragged table it would raise `IndexError`. -/
def tableFields (t : Table) : Except PErr (Option TFields) :=
  if 1 < t.cols.length then
    match t.cols.get? 0 with
    | none => .error .indexError
    | some col0 =>
      if 2 < col0.length then
        match col0.get? 1, t.cols.get? 1 with
        | some c01, some col1 =>
          match col1.get? 1 with
          | none => .error .indexError
          | some c11 =>
            .ok (some ⟨process_table_cell c01 "",
              joinSep "\n" ((col0.drop 2).map (fun c => process_table_cell c "original")),
              process_table_cell c11 "",
              joinSep "\n" ((col1.drop 2).map (fun c => process_table_cell c "amended"))⟩)
        | _, _ => .error .indexError
      else .ok none
  else .ok none

/-- The in-progress accumulator for one amendment: its `raw_content` list and
the table-derived fields (all four are set together, last table wins). -/
structure Acc where
  raw : List String
  fields : Option TFields
deriving DecidableEq

def initAcc : Acc := ⟨[], none⟩

/-- The walk state of `parse_amendments`. -/
structure WState where
  header : List String
  amds : List (Nat × Acc)
  current : Option Nat
  collectingHeader : Bool
deriving DecidableEq

def appendRaw (n : Nat) (t : String) : List (Nat × Acc) → List (Nat × Acc)
  | [] => []
  | p :: rest =>
    if p.1 = n then (p.1, ⟨p.2.raw ++ [t], p.2.fields⟩) :: rest
    else p :: appendRaw n t rest

def updateFields (n : Nat) (f : TFields) : List (Nat × Acc) → List (Nat × Acc)
  | [] => []
  | p :: rest =>
    if p.1 = n then (p.1, ⟨p.2.raw, some f⟩) :: rest
    else p :: updateFields n f rest

def numAmLit : List Char := "<NumAm>".data

def numAmClose : List Char := "</NumAm>".data

/-- Try `re.search(r'<NumAm>(\d{1,4})</NumAm>', ·)` at the current position:
after the literal `<NumAm>` the greedy `\d{1,4}` must take the whole digit
run (a shorter take leaves a digit where `<` is required), so the position
matches iff the maximal digit run has length 1..4 and `</NumAm>` follows. -/
def numAmChk (xs : List Char) : Option Nat :=
  if numAmLit.isPrefixOf xs then
    let rest := xs.drop numAmLit.length
    let ds := rest.takeWhile Char.isDigit
    if 1 ≤ ds.length ∧ ds.length ≤ 4 ∧ numAmClose.isPrefixOf (rest.drop ds.length) then
      some (digitsToNat ds)
    else none
  else none

def findNumAmL : List Char → Option Nat
  | [] => none
  | c :: cs =>
    match numAmChk (c :: cs) with
    | some n => some n
    | none => findNumAmL cs

/-- Leftmost match of the amendment-boundary pattern, with the captured
number. -/
def findNumAm (s : String) : Option Nat := findNumAmL s.data

/-- The paragraph branch of `parse_amendments`' walk. -/
def paraStep (st : WState) (txt : String) : WState :=
  let text := pyStrip txt
  match findNumAm text with
  | some n => ⟨st.header, setKey n initAcc st.amds, some n, false⟩
  | none =>
    if st.collectingHeader then ⟨st.header ++ [text], st.amds, st.current, st.collectingHeader⟩
    else
      match st.current with
      | some n => ⟨st.header, appendRaw n text st.amds, st.current, st.collectingHeader⟩
      | none => st

def blockStep (st : WState) : Block → Except PErr WState
  | .para txt => .ok (paraStep st txt)
  | .table tb =>
    match st.current with
    | some n =>
      match tableFields tb with
      | .error e => .error e
      | .ok none => .ok st
      | .ok (some f) => .ok ⟨st.header, updateFields n f st.amds, some n, st.collectingHeader⟩
    | none => .ok st

def walkAux (st : WState) : List Block → Except PErr WState
  | [] => .ok st
  | b :: bs =>
    match blockStep st b with
    | .error e => .error e
    | .ok st2 => walkAux st2 bs

def initState : WState := ⟨[], [], none, true⟩

/-- The overlay loop `for k, v in data.items(): amendment_data[k] = v` for
the table-derived part of `data` (its first key, `raw_content`, is written
separately just before, holding the raw list transiently). -/
def overlayFields (f : Option TFields) (m : TagMap) : TagMap :=
  match f with
  | none => m
  | some fl =>
    setKey "Amended" (Val.s fl.amended)
      (setKey "AmendedType" (Val.s fl.amendedType)
        (setKey "Original" (Val.s fl.original)
          (setKey "OriginalType" (Val.s fl.originalType) m)))

def justMarker : List Char := "<TitreJust>Justification</TitreJust>".data

/-- The per-amendment post-pass of `parse_amendments`: tag-parse the joined
raw content, overlay the accumulator's entries, overwrite `raw_content` with
the joined string, split the mandatory `RepeatBlock-By` value into `By`
(raising `KeyError` when the key is missing and `AttributeError` when its
value is a list, which has no `replace`), and extract `Justification`. -/
def finalizeAmendment (acc : Acc) : Except PErr TagMap :=
  let full := joinSep "\n" acc.raw
  let m0 := parse_xml_tags full
  let mA := setKey "raw_content" (Val.l acc.raw) m0
  let mB := overlayFields acc.fields mA
  let m2 := setKey "raw_content" (Val.s full) mB
  match lookupKey "RepeatBlock-By" m2 with
  | none => .error (PErr.keyError "RepeatBlock-By")
  | some (Val.l _) => .error PErr.attributeError
  | some (Val.s v) =>
    let names := (splitComma (pyReplace (pyReplace v "<Members>") "</Members>")).map pyStrip
    let m3 := eraseKey "RepeatBlock-By" (setKey "By" (Val.l names) m2)
    let m4 :=
      match findSplit justMarker full.data with
      | none => m3
      | some pr => setKey "Justification" (Val.s ⟨pyStripL (pr.2.takeWhile (fun c => c != '<'))⟩) m3
    .ok m4

def processAmendments : List (Nat × Acc) → Except PErr (List (Nat × TagMap))
  | [] => .ok []
  | p :: rest =>
    match finalizeAmendment p.2 with
    | .error e => .error e
    | .ok m =>
      match processAmendments rest with
      | .error e => .error e
      | .ok r => .ok ((p.1, m) :: r)

/-- The result of a successful parse. -/
structure PResult where
  header : TagMap
  amendments : List (Nat × TagMap)
deriving DecidableEq

/-- Embeds `utils.parse_amendments`, over the block stream that
`iter_block_items` yields for the document. -/
def parse_amendments (blocks : List Block) : Except PErr PResult :=
  match walkAux initState blocks with
  | .error e => .error e
  | .ok st =>
    match processAmendments st.amds with
    | .error e => .error e
    | .ok ams => .ok ⟨parse_xml_tags (joinSep "\n" st.header), ams⟩

/-! ## `remove_unnec_tags` -/

/-- Try the pattern `close ++ \s+ ++ open` at the current position; on a
match return the remainder after it.  Since our opening tags start with a
non-whitespace character, the greedy `\s+` cannot backtrack usefully: the
whole whitespace run is taken and the opening tag must follow it. -/
def collapseAt (cl op xs : List Char) : Option (List Char) :=
  if cl.isPrefixOf xs then
    let rest := xs.drop cl.length
    let ws := rest.takeWhile isPyWs
    if ws = [] then none
    else if op.isPrefixOf (rest.dropWhile isPyWs) then
      some ((rest.dropWhile isPyWs).drop op.length)
    else none
  else none

/-- Fuelled worker of `re.sub(close ++ \s+ ++ open, '', ·)`: leftmost
matches, continuing after each removed match. -/
def subCollapseF (cl op : List Char) : Nat → List Char → List Char
  | 0, xs => xs
  | _ + 1, [] => []
  | f + 1, c :: cs =>
    match collapseAt cl op (c :: cs) with
    | some rest => subCollapseF cl op f rest
    | none => c :: subCollapseF cl op f cs

def subCollapse (cl op xs : List Char) : List Char := subCollapseF cl op xs.length xs

/-- Embeds `utils.remove_unnec_tags`: delete `[/DEL]\s+[DEL]`, then `[/ADD]\s+[ADD]`. -/
def remove_unnec_tags (s : String) : String :=
  ⟨subCollapse "[/ADD]".data "[ADD]".data (subCollapse "[/DEL]".data "[DEL]".data s.data)⟩

/-- Does `close ++ \s+ ++ open` occur anywhere in the text? -/
def hasCollapse (cl op : List Char) : List Char → Bool
  | [] => false
  | c :: cs => (collapseAt cl op (c :: cs)).isSome || hasCollapse cl op cs

/-! ## Spec-side definitions (for refinement statements) -/

/-- Per-run emission as the spec words it, for a given optional tag pair:
a stripped-empty run is dropped; a run that has both bold and italic set is
wrapped in the tag pair when one is given (and omitted when the cell is
processed without a kind, as the type-label cells are); any other run is
emitted plainly. -/
def specItem (tags : Option (String × String)) (r : Run) : Option String :=
  let t := pyStrip r.text
  if t = "" then none
  else if r.bold && r.italic then tags.map (fun p => p.1 ++ t ++ p.2)
  else some t

/-- Cell text as the spec words it: the emitted runs of all the cell's
paragraphs, joined by single spaces. -/
def cellText (tags : Option (String × String)) (c : Cell) : String :=
  joinSep " " (c.flatten.filterMap (specItem tags))

/-- The texts of the top-level paragraph blocks, in order. -/
def paraTexts : List Block → List String
  | [] => []
  | .para t :: bs => t :: paraTexts bs
  | .table _ :: bs => paraTexts bs

/-- The data-model invariant of a `docx` table: it is a 2-D grid, so all
columns have the same number of cells. -/
def Rect (t : Table) : Prop := ∀ c1 ∈ t.cols, ∀ c2 ∈ t.cols, c1.length = c2.length

instance {ε α : Type} [DecidableEq ε] [DecidableEq α] : DecidableEq (Except ε α) := fun a b =>
  match a, b with
  | .error e, .error f =>
    match decEq e f with
    | .isTrue h => .isTrue (by rw [h])
    | .isFalse h => .isFalse (by intro hh; injection hh; contradiction)
  | .error _, .ok _ => .isFalse (fun hh => Except.noConfusion hh)
  | .ok _, .error _ => .isFalse (fun hh => Except.noConfusion hh)
  | .ok a, .ok b =>
    match decEq a b with
    | .isTrue h => .isTrue (by rw [h])
    | .isFalse h => .isFalse (by intro hh; injection hh; contradiction)

/-! ## Association-list lemmas -/

theorem lookupKey_setKey_self {κ α : Type} [DecidableEq κ] (k : κ) (v : α)
    (l : List (κ × α)) : lookupKey k (setKey k v l) = some v := by
  induction l with
  | nil => simp [setKey, lookupKey]
  | cons p rest ih =>
    by_cases h : p.1 = k
    · simp [setKey, h, lookupKey]
    · simp [setKey, h, lookupKey, ih]

theorem lookupKey_setKey_ne {κ α : Type} [DecidableEq κ] (k k' : κ) (v : α)
    (l : List (κ × α)) (h : k' ≠ k) : lookupKey k (setKey k' v l) = lookupKey k l := by
  induction l with
  | nil => simp [setKey, lookupKey, h]
  | cons p rest ih =>
    by_cases hp : p.1 = k'
    · simp [setKey, hp, lookupKey, h, hp ▸ h]
    · simp [setKey, hp, lookupKey, ih]

theorem lookupKey_eraseKey_self {κ α : Type} [DecidableEq κ] (k : κ)
    (l : List (κ × α)) : lookupKey k (eraseKey k l) = none := by
  induction l with
  | nil => simp [eraseKey, lookupKey]
  | cons p rest ih =>
    by_cases h : p.1 = k
    · simp [eraseKey, h, ih]
    · simp [eraseKey, h, lookupKey, ih]

theorem lookupKey_eraseKey_ne {κ α : Type} [DecidableEq κ] (k k' : κ)
    (l : List (κ × α)) (h : k' ≠ k) : lookupKey k (eraseKey k' l) = lookupKey k l := by
  induction l with
  | nil => simp [eraseKey, lookupKey]
  | cons p rest ih =>
    by_cases hp : p.1 = k'
    · simp [eraseKey, hp, lookupKey, ih, h]
    · simp [eraseKey, hp, lookupKey, ih]

/-! ## Scanner lemmas -/

theorem isPrefixOf_append_self (pat b : List Char) : pat.isPrefixOf (pat ++ b) = true := by
  induction pat with
  | nil => simp [List.isPrefixOf]
  | cons c cs ih => simp [List.isPrefixOf, ih]

theorem findSplit_sound (pat : List Char) :
    ∀ xs a b, findSplit pat xs = some (a, b) → xs = a ++ pat ++ b := by
  intro xs
  induction xs with
  | nil =>
    intro a b h
    cases pat with
    | nil =>
      simp [findSplit, List.isPrefixOf] at h
      obtain ⟨h1, h2⟩ := h
      subst h1; subst h2; rfl
    | cons p ps =>
      simp [findSplit, List.isPrefixOf] at h
  | cons c cs ih =>
    intro a b h
    simp only [findSplit] at h
    split at h
    · rename_i hp
      simp only [Option.some.injEq, Prod.mk.injEq] at h
      obtain ⟨h1, h2⟩ := h
      obtain ⟨t, ht⟩ := List.isPrefixOf_iff_prefix.mp hp
      subst h1
      have hd : (c :: cs).drop pat.length = t := by
        rw [← ht]; exact List.drop_left pat t
      subst h2
      rw [hd, ← ht]
      simp
    · cases hf : findSplit pat cs with
      | none =>
        rw [hf] at h
        simp at h
      | some pr =>
        rw [hf] at h
        simp only [Option.some.injEq, Prod.mk.injEq] at h
        obtain ⟨h1, h2⟩ := h
        have hcs := ih pr.1 pr.2 (by rw [hf])
        subst h2
        rw [← h1, hcs]
        simp

theorem findSplit_at (p : Char) (ps a b : List Char) (ha : p ∉ a) :
    findSplit (p :: ps) (a ++ (p :: ps) ++ b) = some (a, b) := by
  induction a with
  | nil =>
    show findSplit (p :: ps) (p :: (ps ++ b)) = some ([], b)
    have hpre : (p :: ps).isPrefixOf (p :: (ps ++ b)) = true :=
      isPrefixOf_append_self (p :: ps) b
    have hdrop : (p :: (ps ++ b)).drop (p :: ps).length = b :=
      List.drop_left (p :: ps) b
    simp [findSplit, hpre, hdrop]
  | cons c a' ih =>
    have hpc : ¬ (p = c) := fun e => ha (by rw [e]; exact List.mem_cons_self c a')
    have ha' : p ∉ a' := fun hm => ha (List.mem_cons_of_mem _ hm)
    show findSplit (p :: ps) (c :: (a' ++ (p :: ps) ++ b)) = some (c :: a', b)
    have hnp : (p :: ps).isPrefixOf (c :: (a' ++ (p :: ps) ++ b)) = false := by
      simp [List.isPrefixOf]
      intro e
      exact absurd (by simpa using e) hpc
    simp only [findSplit, hnp, Bool.false_eq_true, if_false]
    rw [ih ha']

theorem takeUntilGt_sound :
    ∀ xs a b, takeUntilGt xs = some (a, b) → xs = a ++ '>' :: b := by
  intro xs
  induction xs with
  | nil => intro a b h; simp [takeUntilGt] at h
  | cons c cs ih =>
    intro a b h
    simp only [takeUntilGt] at h
    split at h
    · rename_i hc
      simp only [Option.some.injEq, Prod.mk.injEq] at h
      obtain ⟨h1, h2⟩ := h
      subst h1; subst h2
      simp [hc]
    · cases ht : takeUntilGt cs with
      | none =>
        rw [ht] at h
        simp at h
      | some pr =>
        rw [ht] at h
        simp only [Option.some.injEq, Prod.mk.injEq] at h
        obtain ⟨h1, h2⟩ := h
        have hcs := ih pr.1 pr.2 (by rw [ht])
        subst h2
        rw [← h1, hcs]
        simp

theorem takeUntilGt_append (a b : List Char) (h : '>' ∉ a) :
    takeUntilGt (a ++ '>' :: b) = some (a, b) := by
  induction a with
  | nil => simp [takeUntilGt]
  | cons c a' ih =>
    have hc : ¬ (c = '>') := by intro e; exact h (by simp [e])
    have ha' : '>' ∉ a' := fun hm => h (List.mem_cons_of_mem _ hm)
    show takeUntilGt (c :: (a' ++ '>' :: b)) = some (c :: a', b)
    simp only [takeUntilGt, hc, if_false]
    rw [ih ha']

theorem tryAt_length :
    ∀ xs g v r, tryAt xs = some (g, v, r) → r.length < xs.length := by
  intro xs g v r h
  cases xs with
  | nil => simp [tryAt] at h
  | cons c cs =>
    simp only [tryAt] at h
    split at h
    · cases htu : takeUntilGt cs with
      | none => rw [htu] at h; simp at h
      | some pr =>
        rw [htu] at h
        have hcs := takeUntilGt_sound cs pr.1 pr.2 (by rw [htu])
        simp only at h
        split at h
        · simp at h
        · cases hfs : findSplit ('<' :: '/' :: (pr.1 ++ ['>'])) pr.2 with
          | none => rw [hfs] at h; simp at h
          | some qr =>
            rw [hfs] at h
            have hr2 := findSplit_sound _ pr.2 qr.1 qr.2 (by rw [hfs])
            simp only [Option.some.injEq, Prod.mk.injEq] at h
            obtain ⟨-, -, h3⟩ := h
            subst h3
            have l1 : cs.length = pr.1.length + 1 + pr.2.length := by
              rw [hcs]; simp; omega
            have l2 : pr.2.length = qr.1.length + (pr.1.length + 3) + qr.2.length := by
              rw [hr2]; simp; omega
            simp only [List.length_cons]
            omega
    · simp at h

theorem skipScan_lt :
    ∀ xs g v r, skipScan xs = some (g, v, r) → r.length < xs.length := by
  intro xs
  induction xs with
  | nil => intro g v r h; simp [skipScan] at h
  | cons c cs ih =>
    intro g v r h
    simp only [skipScan] at h
    cases htr : tryAt (c :: cs) with
    | some t =>
      rw [htr] at h
      simp only [Option.some.injEq] at h
      subst h
      exact tryAt_length (c :: cs) g v r (by rw [htr])
    | none =>
      rw [htr] at h
      simp only at h
      have := ih g v r h
      simp only [List.length_cons]
      omega

theorem scanTagsF_stable :
    ∀ (f : Nat) (xs : List Char), xs.length ≤ f → scanTagsF f xs = scanTagsF xs.length xs := by
  intro f
  induction f using Nat.strong_induction_on with
  | _ f ih =>
    intro xs hle
    cases f with
    | zero =>
      cases xs with
      | nil => rfl
      | cons a as => simp at hle
    | succ f =>
      cases xs with
      | nil => rfl
      | cons c cs =>
        cases hs : skipScan (c :: cs) with
        | none => simp [scanTagsF, hs]
        | some tr =>
          have hlt : tr.2.2.length < (c :: cs).length :=
            skipScan_lt (c :: cs) tr.1 tr.2.1 tr.2.2 (by rw [hs])
          simp only [List.length_cons] at hlt hle
          have h1 : scanTagsF f tr.2.2 = scanTagsF tr.2.2.length tr.2.2 :=
            ih f (Nat.lt_succ_self f) tr.2.2 (by omega)
          have h2 : scanTagsF cs.length tr.2.2 = scanTagsF tr.2.2.length tr.2.2 :=
            ih cs.length (by omega) tr.2.2 (by omega)
          simp [scanTagsF, hs, h1, h2]

theorem scanTags_nil_of_skipScan (xs : List Char) (h : skipScan xs = none) :
    scanTags xs = [] := by
  cases xs with
  | nil => rfl
  | cons c cs => simp [scanTags, scanTagsF, h]

theorem scanTags_cons_of_skipScan (xs g v r : List Char)
    (h : skipScan xs = some (g, v, r)) : scanTags xs = (g, v) :: scanTags r := by
  cases xs with
  | nil => simp [skipScan] at h
  | cons c cs =>
    have hlt : r.length < (c :: cs).length := skipScan_lt (c :: cs) g v r h
    simp only [List.length_cons] at hlt
    have hst : scanTagsF cs.length r = scanTagsF r.length r :=
      scanTagsF_stable cs.length r (by omega)
    simp [scanTags, scanTagsF, h, hst]

theorem tryAt_ne (c : Char) (cs : List Char) (h : ¬ (c = '<')) :
    tryAt (c :: cs) = none := by
  simp [tryAt, h]

theorem skipScan_skip (a r : List Char) (h : '<' ∉ a) : skipScan (a ++ r) = skipScan r := by
  induction a with
  | nil => rfl
  | cons c a' ih =>
    have hc : ¬ (c = '<') := by intro e; exact h (by simp [e])
    have ha' : '<' ∉ a' := fun hm => h (List.mem_cons_of_mem _ hm)
    show skipScan (c :: (a' ++ r)) = skipScan r
    simp only [skipScan, tryAt_ne c (a' ++ r) hc]
    exact ih ha'

theorem skipScan_none (a : List Char) (h : '<' ∉ a) : skipScan a = none := by
  have h0 := skipScan_skip a [] h
  simpa using h0

theorem scanTags_skip (a r : List Char) (h : '<' ∉ a) : scanTags (a ++ r) = scanTags r := by
  cases hs : skipScan r with
  | none =>
    rw [scanTags_nil_of_skipScan r hs]
    exact scanTags_nil_of_skipScan _ (by rw [skipScan_skip a r h]; exact hs)
  | some tr =>
    rw [scanTags_cons_of_skipScan r tr.1 tr.2.1 tr.2.2 (by rw [hs])]
    exact scanTags_cons_of_skipScan (a ++ r) tr.1 tr.2.1 tr.2.2
      (by rw [skipScan_skip a r h]; rw [hs])

theorem scanTags_of_no_lt (a : List Char) (h : '<' ∉ a) : scanTags a = [] :=
  scanTags_nil_of_skipScan a (skipScan_none a h)

theorem tryAt_match (g1 v s : List Char) (hne : g1 ≠ []) (hgt : '>' ∉ g1) (hv : '<' ∉ v) :
    tryAt ('<' :: (g1 ++ '>' :: (v ++ ('<' :: '/' :: (g1 ++ ['>'])) ++ s)))
      = some (g1, v, s) := by
  have h1 : takeUntilGt (g1 ++ '>' :: (v ++ ('<' :: '/' :: (g1 ++ ['>'])) ++ s))
      = some (g1, v ++ ('<' :: '/' :: (g1 ++ ['>'])) ++ s) :=
    takeUntilGt_append _ _ hgt
  have h2 : findSplit ('<' :: '/' :: (g1 ++ ['>'])) (v ++ ('<' :: '/' :: (g1 ++ ['>'])) ++ s)
      = some (v, s) := findSplit_at '<' ('/' :: (g1 ++ ['>'])) v s hv
  simp only [List.append_assoc, List.singleton_append, List.cons_append, List.nil_append] at h1 h2
  simp [tryAt, h1, hne, h2]

theorem skipScan_match (g1 v s : List Char) (hne : g1 ≠ []) (hgt : '>' ∉ g1) (hv : '<' ∉ v) :
    skipScan ('<' :: (g1 ++ '>' :: (v ++ ('<' :: '/' :: (g1 ++ ['>'])) ++ s)))
      = some (g1, v, s) := by
  have h := tryAt_match g1 v s hne hgt hv
  simp only [List.append_assoc, List.singleton_append, List.cons_append, List.nil_append] at h
  simp [skipScan, h]

theorem scanTags_match (g1 v s : List Char) (hne : g1 ≠ []) (hgt : '>' ∉ g1) (hv : '<' ∉ v) :
    scanTags ('<' :: (g1 ++ '>' :: (v ++ ('<' :: '/' :: (g1 ++ ['>'])) ++ s)))
      = (g1, v) :: scanTags s :=
  scanTags_cons_of_skipScan _ g1 v s (skipScan_match g1 v s hne hgt hv)

theorem dropWhile_eq_self_of_all {p : Char → Bool} (l : List Char)
    (h : ∀ x ∈ l, p x = false) : l.dropWhile p = l := by
  cases l with
  | nil => rfl
  | cons c cs => simp [List.dropWhile_cons, h c (List.mem_cons_self c cs)]

theorem stripAngle_eq_self (xs : List Char) (h1 : '<' ∉ xs) (h2 : '>' ∉ xs) :
    stripAngleL xs = xs := by
  have hall : ∀ x ∈ xs, isAngle x = false := by
    intro x hx
    have hx1 : ¬ (x = '<') := fun e => h1 (e ▸ hx)
    have hx2 : ¬ (x = '>') := fun e => h2 (e ▸ hx)
    simp [isAngle, hx1, hx2]
  have hd1 : xs.dropWhile isAngle = xs := dropWhile_eq_self_of_all xs hall
  have hd2 : xs.reverse.dropWhile isAngle = xs.reverse :=
    dropWhile_eq_self_of_all _ (fun x hx => hall x (List.mem_reverse.mp hx))
  simp [stripAngleL, hd1, hd2]

theorem takeWhile_eq_self_of_all {p : Char → Bool} :
    ∀ l : List Char, (∀ x ∈ l, p x = true) → l.takeWhile p = l := by
  intro l
  induction l with
  | nil => intro _; rfl
  | cons c cs ih =>
    intro h
    simp [List.takeWhile_cons, h c (List.mem_cons_self c cs),
      ih (fun x hx => h x (List.mem_cons_of_mem _ hx))]

theorem takeWhile_append_stop {p : Char → Bool} (c : Char) (b : List Char)
    (hc : p c = false) :
    ∀ a : List Char, (∀ x ∈ a, p x = true) → (a ++ c :: b).takeWhile p = a := by
  intro a
  induction a with
  | nil => intro _; simp [List.takeWhile_cons, hc]
  | cons d a' ih =>
    intro h
    show ((d :: (a' ++ c :: b)).takeWhile p) = d :: a'
    simp [List.takeWhile_cons, h d (List.mem_cons_self d a'),
      ih (fun x hx => h x (List.mem_cons_of_mem _ hx))]

theorem tagKeyL_plain (g1 : List Char) (hsp : ' ' ∉ g1) (hlt : '<' ∉ g1)
    (hgt : '>' ∉ g1) : tagKeyL g1 = g1 := by
  have ht : g1.takeWhile (fun c => c != ' ') = g1 := by
    apply takeWhile_eq_self_of_all
    intro x hx
    simp only [bne_iff_ne, ne_eq, decide_eq_true_eq]
    exact fun e => hsp (e ▸ hx)
  rw [tagKeyL, ht]
  exact stripAngle_eq_self g1 hlt hgt

theorem tagKeyL_attrs (name attrs : List Char) (hsp : ' ' ∉ name) (hlt : '<' ∉ name)
    (hgt : '>' ∉ name) : tagKeyL (name ++ ' ' :: attrs) = name := by
  have ht : (name ++ ' ' :: attrs).takeWhile (fun c => c != ' ') = name := by
    apply takeWhile_append_stop ' ' attrs (by simp)
    intro x hx
    simp only [bne_iff_ne, ne_eq, decide_eq_true_eq]
    exact fun e => hsp (e ▸ hx)
  rw [tagKeyL, ht]
  exact stripAngle_eq_self name hlt hgt

theorem data_lt : "<".data = ['<'] := rfl

theorem data_gt : ">".data = ['>'] := rfl

theorem data_closeSlash : "</".data = ['<', '/'] := rfl

theorem data_space : " ".data = [' '] := rfl

theorem mk_data (s : String) : String.mk s.data = s := rfl

/-- The scan of a text consisting of a `'<'`-free prefix, one well-formed tag
pair with a bare name, and an arbitrary remainder: the pair is matched and
the scan continues on the remainder. -/
theorem scanTags_tag_block (X v : String) (rest : List Char)
    (hX : X.data ≠ []) (hXgt : '>' ∉ X.data) (hv : '<' ∉ v.data) (p : String)
    (hp : '<' ∉ p.data) :
    scanTags (p.data ++ ('<' :: (X.data ++ '>' :: (v.data ++ ('<' :: '/' :: (X.data ++ ['>'])) ++ rest))))
      = (X.data, v.data) :: scanTags rest := by
  rw [scanTags_skip _ _ hp]
  exact scanTags_match X.data v.data rest hX hXgt hv

/-! ## Table-cell equivalence lemmas -/

theorem runStep_empty (acc : List String) (r : Run) :
    runStep "" acc r = acc ++ (specItem none r).toList := by
  simp only [runStep, specItem]
  by_cases h1 : pyStrip r.text = ""
  · simp [h1]
  · by_cases h2 : (r.bold && r.italic) = true
    · simp [h1, h2]
    · simp [h1, h2]

theorem runStep_original (acc : List String) (r : Run) :
    runStep "original" acc r = acc ++ (specItem (some ("[DEL]", "[/DEL]")) r).toList := by
  simp only [runStep, specItem]
  by_cases h1 : pyStrip r.text = ""
  · simp [h1]
  · by_cases h2 : (r.bold && r.italic) = true
    · simp [h1, h2]
    · simp [h1, h2]

theorem runStep_amended (acc : List String) (r : Run) :
    runStep "amended" acc r = acc ++ (specItem (some ("[ADD]", "[/ADD]")) r).toList := by
  simp only [runStep, specItem]
  have hno : ¬ (("amended" : String) = "original") := by decide
  by_cases h1 : pyStrip r.text = ""
  · simp [h1]
  · by_cases h2 : (r.bold && r.italic) = true
    · simp [h1, h2, hno]
    · simp [h1, h2]

theorem foldl_runStep_eq (g : Run → Option String) (step : List String → Run → List String)
    (hstep : ∀ acc r, step acc r = acc ++ (g r).toList) :
    ∀ (l : List Run) (acc : List String), l.foldl step acc = acc ++ l.filterMap g := by
  intro l
  induction l with
  | nil => intro acc; simp
  | cons r rs ih =>
    intro acc
    rw [List.foldl_cons, hstep, ih]
    cases hg : g r with
    | none => simp [hg, List.filterMap_cons]
    | some v => simp [hg, List.filterMap_cons]

theorem cell_foldl_eq (g : Run → Option String) (step : List String → Run → List String)
    (hstep : ∀ acc r, step acc r = acc ++ (g r).toList) :
    ∀ (cell : Cell) (acc : List String),
      cell.foldl (fun acc para => para.foldl step acc) acc
        = acc ++ cell.flatten.filterMap g := by
  intro cell
  induction cell with
  | nil => intro acc; simp
  | cons para ps ih =>
    intro acc
    rw [List.foldl_cons, foldl_runStep_eq g step hstep, ih]
    simp [List.filterMap_append, List.append_assoc]

theorem ptc_type_cell (c : Cell) : process_table_cell c "" = cellText none c := by
  rw [process_table_cell, cellText, cell_foldl_eq (specItem none) (runStep "") runStep_empty]
  simp

theorem ptc_original_cell (c : Cell) :
    process_table_cell c "original" = cellText (some ("[DEL]", "[/DEL]")) c := by
  rw [process_table_cell, cellText,
    cell_foldl_eq (specItem (some ("[DEL]", "[/DEL]"))) (runStep "original") runStep_original]
  simp

theorem ptc_amended_cell (c : Cell) :
    process_table_cell c "amended" = cellText (some ("[ADD]", "[/ADD]")) c := by
  rw [process_table_cell, cellText,
    cell_foldl_eq (specItem (some ("[ADD]", "[/ADD]"))) (runStep "amended") runStep_amended]
  simp

/-! ## Walk and finalisation lemmas -/

theorem walk_header (blocks : List Block) :
    ∀ h0 : List String,
      (paraTexts blocks).all (fun t => (findNumAm (pyStrip t)).isNone) = true →
      walkAux ⟨h0, [], none, true⟩ blocks
        = .ok ⟨h0 ++ (paraTexts blocks).map pyStrip, [], none, true⟩ := by
  induction blocks with
  | nil => intro h0 _; simp [walkAux, paraTexts]
  | cons b bs ih =>
    intro h0 hall
    cases b with
    | para t =>
      simp only [paraTexts, List.all_cons, Bool.and_eq_true] at hall
      obtain ⟨h1, h2⟩ := hall
      have hnum : findNumAm (pyStrip t) = none := by
        cases hx : findNumAm (pyStrip t) with
        | none => rfl
        | some n => rw [hx] at h1; simp at h1
      have hstep : blockStep ⟨h0, [], none, true⟩ (.para t)
          = .ok ⟨h0 ++ [pyStrip t], [], none, true⟩ := by
        simp [blockStep, paraStep, hnum]
      simp only [walkAux, hstep]
      rw [ih (h0 ++ [pyStrip t]) h2]
      simp [paraTexts, List.append_assoc]
    | table tb =>
      have hstep : blockStep ⟨h0, [], none, true⟩ (.table tb) = .ok ⟨h0, [], none, true⟩ := by
        simp [blockStep]
      simp only [walkAux, hstep]
      rw [ih h0 (by simpa [paraTexts] using hall)]
      simp [paraTexts]

theorem processAmendments_ok_mem :
    ∀ (as : List (Nat × Acc)) (r : List (Nat × TagMap)), processAmendments as = .ok r →
      ∀ p ∈ as, ∃ m, finalizeAmendment p.2 = .ok m := by
  intro as
  induction as with
  | nil => intro r _ p hp; simp at hp
  | cons q qs ih =>
    intro r h p hp
    simp only [processAmendments] at h
    cases hf : finalizeAmendment q.2 with
    | error e => rw [hf] at h; simp at h
    | ok m =>
      rw [hf] at h
      cases hr : processAmendments qs with
      | error e => rw [hr] at h; simp at h
      | ok r2 =>
        rcases List.mem_cons.mp hp with he | hm
        · exact ⟨m, he ▸ hf⟩
        · exact ih r2 hr p hm

/-- The overlay of `raw_content` and the table fields never touches the
`RepeatBlock-By` key: the lookup that decides the author split reads the tag
map recovered from the raw text. -/
theorem lookupKey_RB_pre (f : Option TFields) (m : TagMap) (raws : List String) :
    lookupKey "RepeatBlock-By" (setKey "raw_content" (Val.s (joinSep "\n" raws))
        (overlayFields f (setKey "raw_content" (Val.l raws) m)))
      = lookupKey "RepeatBlock-By" m := by
  rw [lookupKey_setKey_ne _ _ _ _ (by decide)]
  cases f with
  | none =>
    simp only [overlayFields]
    rw [lookupKey_setKey_ne _ _ _ _ (by decide)]
  | some fl =>
    simp only [overlayFields]
    rw [lookupKey_setKey_ne _ _ _ _ (by decide), lookupKey_setKey_ne _ _ _ _ (by decide),
      lookupKey_setKey_ne _ _ _ _ (by decide), lookupKey_setKey_ne _ _ _ _ (by decide),
      lookupKey_setKey_ne _ _ _ _ (by decide)]

/-! ## Collapse lemmas -/

theorem subCollapseF_id (cl op : List Char) :
    ∀ (f : Nat) (xs : List Char), hasCollapse cl op xs = false →
      subCollapseF cl op f xs = xs := by
  intro f
  induction f with
  | zero => intro xs _; rfl
  | succ f ih =>
    intro xs h
    cases xs with
    | nil => rfl
    | cons c cs =>
      simp only [hasCollapse, Bool.or_eq_false_iff] at h
      obtain ⟨h1, h2⟩ := h
      have hca : collapseAt cl op (c :: cs) = none := by
        cases hx : collapseAt cl op (c :: cs) with
        | none => rfl
        | some r => rw [hx] at h1; simp at h1
      simp [subCollapseF, hca, ih cs h2]

/-! ## Claim C3 -/

/-- Claim C3: for any text containing the pattern `<X>value</X>` exactly once
(bare tag name, matching close — here: a `'<'`-free prefix and suffix around
one well-formed pair), the Tag Parser returns the single entry mapping `X` to
the trimmed scalar value; with two such pairs with the same tag name, it
returns `X` mapped to the ordered two-element list of trimmed values in
encounter order. -/
theorem C3_tag_parser_roundtrip (X v1 v2 p m s : String)
    (hX : X.data ≠ []) (hXgt : '>' ∉ X.data) (hXsp : ' ' ∉ X.data) (hXlt : '<' ∉ X.data)
    (hp : '<' ∉ p.data) (hm : '<' ∉ m.data) (hs : '<' ∉ s.data)
    (hv1 : '<' ∉ v1.data) (hv2 : '<' ∉ v2.data) (_hne : pyStrip v1 ≠ pyStrip v2) :
    parse_xml_tags (p ++ "<" ++ X ++ ">" ++ v1 ++ "</" ++ X ++ ">" ++ s)
        = [(X, Val.s (pyStrip v1))]
    ∧ parse_xml_tags (p ++ "<" ++ X ++ ">" ++ v1 ++ "</" ++ X ++ ">" ++ m
          ++ "<" ++ X ++ ">" ++ v2 ++ "</" ++ X ++ ">" ++ s)
        = [(X, Val.l [pyStrip v1, pyStrip v2])] := by
  have hkey : (⟨tagKeyL X.data⟩ : String) = X := by
    rw [tagKeyL_plain X.data hXsp hXlt hXgt]
  constructor
  · have hdata : (p ++ "<" ++ X ++ ">" ++ v1 ++ "</" ++ X ++ ">" ++ s).data
        = p.data ++ ('<' :: (X.data ++ '>' ::
            (v1.data ++ ('<' :: '/' :: (X.data ++ ['>'])) ++ s.data))) := by
      simp [String.data_append, data_lt, data_gt, data_closeSlash, List.append_assoc]
    rw [parse_xml_tags, hdata, scanTags_tag_block X v1 s.data hX hXgt hv1 p hp,
        scanTags_of_no_lt s.data hs]
    simp [List.foldl, addTag, lookupKey, hkey, pyStrip]
  · have hdata : (p ++ "<" ++ X ++ ">" ++ v1 ++ "</" ++ X ++ ">" ++ m
          ++ "<" ++ X ++ ">" ++ v2 ++ "</" ++ X ++ ">" ++ s).data
        = p.data ++ ('<' :: (X.data ++ '>' ::
            (v1.data ++ ('<' :: '/' :: (X.data ++ ['>'])) ++
              (m.data ++ ('<' :: (X.data ++ '>' ::
                (v2.data ++ ('<' :: '/' :: (X.data ++ ['>'])) ++ s.data))))))) := by
      simp [String.data_append, data_lt, data_gt, data_closeSlash, List.append_assoc]
    rw [parse_xml_tags, hdata, scanTags_tag_block X v1 _ hX hXgt hv1 p hp,
        scanTags_tag_block X v2 s.data hX hXgt hv2 m hm,
        scanTags_of_no_lt s.data hs]
    simp [List.foldl, addTag, lookupKey, setKey, hkey, pyStrip]

/-- Witness for C3 at concrete inputs. -/
theorem C3_tag_parser_roundtrip_witness :
    parse_xml_tags "<X>a</X>" = [("X", Val.s "a")]
    ∧ parse_xml_tags "<X>a</X>-<X>b</X>" = [("X", Val.l ["a", "b"])] := by
  have h := C3_tag_parser_roundtrip "X" "a" "b" "" "-" "" (by decide) (by decide)
    (by decide) (by decide) (by decide) (by decide) (by decide) (by decide) (by decide)
    (by decide)
  exact ⟨h.1, h.2⟩

/-! ## Claim C6 -/

/-- Claim C6 counterexample: the claim states that for `<name attrs>content</name>`
(closing tag bearing only the bare tag token) the Tag Parser matches the pair
and returns an entry keyed by the part before the first space.  It does not:
the backreference `\1` requires the closing tag to repeat the attributes, so
`"<a b>c</a>"` produces no entry at all. -/
theorem C6_attrs_cex :
    parse_xml_tags "<a b>c</a>" = []
    ∧ ¬ lookupKey "a" (parse_xml_tags "<a b>c</a>") = some (Val.s "c") := by
  constructor
  · decide
  · decide

/-- Claim C6 (amended): the Tag Parser matches an attributed opening tag only
when the closing tag repeats the full opening token including the attributes,
as in `<name attrs>content</name attrs>`; the resulting entry is keyed by the
portion of the opening tag before the first space (attributes are ignored for
keying and not otherwise used), with the trimmed content as value. -/
theorem C6_attrs_amended (name attrs v p s : String)
    (hnsp : ' ' ∉ name.data) (hnlt : '<' ∉ name.data) (hngt : '>' ∉ name.data)
    (hagt : '>' ∉ attrs.data) (hv : '<' ∉ v.data) (hp : '<' ∉ p.data) (hs : '<' ∉ s.data) :
    parse_xml_tags (p ++ "<" ++ name ++ " " ++ attrs ++ ">" ++ v
        ++ "</" ++ name ++ " " ++ attrs ++ ">" ++ s)
      = [(name, Val.s (pyStrip v))] := by
  have hg1ne : name.data ++ ' ' :: attrs.data ≠ [] := by simp
  have hg1gt : '>' ∉ (name.data ++ ' ' :: attrs.data) := by
    intro hmem
    rcases List.mem_append.mp hmem with h | h
    · exact hngt h
    · rcases List.mem_cons.mp h with h | h
      · exact absurd h (by decide)
      · exact hagt h
  have hdata : (p ++ "<" ++ name ++ " " ++ attrs ++ ">" ++ v
        ++ "</" ++ name ++ " " ++ attrs ++ ">" ++ s).data
      = p.data ++ ('<' :: ((name.data ++ ' ' :: attrs.data) ++ '>' ::
          (v.data ++ ('<' :: '/' :: ((name.data ++ ' ' :: attrs.data) ++ ['>'])) ++ s.data))) := by
    simp [String.data_append, data_lt, data_gt, data_closeSlash, data_space,
      List.append_assoc]
  have hkey : (⟨tagKeyL (name.data ++ ' ' :: attrs.data)⟩ : String) = name := by
    rw [tagKeyL_attrs name.data attrs.data hnsp hnlt hngt]
  rw [parse_xml_tags, hdata, scanTags_skip _ _ hp,
      scanTags_match _ v.data s.data hg1ne hg1gt hv, scanTags_of_no_lt s.data hs]
  simp [List.foldl, addTag, lookupKey, hkey, pyStrip]

/-- Witness for the amended C6 at a concrete input. -/
theorem C6_attrs_amended_witness :
    parse_xml_tags "<a b>c</a b>" = [("a", Val.s "c")] := by
  have h := C6_attrs_amended "a" "b" "c" "" "" (by decide) (by decide) (by decide)
    (by decide) (by decide) (by decide) (by decide)
  exact h

/-! ## Claim C1 -/

/-- Claim C1 counterexample: the claim states `OriginalType` equals the
run-concatenated text of column 0 row 1 with no diff tagging.  In the code
the type cells are processed with an empty column kind, under which a run
with both bold and italic set falls into neither tagging branch and is
dropped entirely: a table whose type cell holds the bold+italic run `"Label"`
yields `OriginalType = ""`, not `"Label"`. -/
theorem C1_table_fields_cex :
    tableFields ⟨[[[[]], [[⟨"Label", true, true⟩]], [[⟨"old", false, false⟩]]],
        [[[]], [[⟨"Label", true, true⟩]], [[⟨"new", true, true⟩]]]]⟩
      = .ok (some ⟨"", "old", "", "[ADD]new[/ADD]"⟩)
    ∧ ¬ (("" : String) = "Label") := by
  constructor
  · decide
  · decide

/-- Claim C1 (amended): for a table with at least two columns and more than
two cells in column 0, processed while an amendment is collected, exactly the
four fields are produced: `OriginalType`/`AmendedType` are the space-joined
stripped nonempty run texts of row 1 of columns 0/1 with bold+italic runs
omitted entirely (not tagged), and `Original`/`Amended` are the newline-joins
over cells 2..N with each bold+italic run wrapped in `[DEL]`/`[ADD]` tags and
all other runs emitted plainly; the walk stores them on the current
amendment's accumulator. -/
theorem C1_table_extract_amended (t : Table) (col0 col1 : List Cell) (c01 c11 : Cell)
    (n : Nat) (st : WState)
    (h0 : t.cols.get? 0 = some col0) (h1 : t.cols.get? 1 = some col1)
    (hlen : 2 < col0.length) (hc01 : col0.get? 1 = some c01) (hc11 : col1.get? 1 = some c11)
    (hcur : st.current = some n) :
    tableFields t = .ok (some ⟨cellText none c01,
        joinSep "\n" ((col0.drop 2).map (cellText (some ("[DEL]", "[/DEL]")))),
        cellText none c11,
        joinSep "\n" ((col1.drop 2).map (cellText (some ("[ADD]", "[/ADD]"))))⟩)
    ∧ (∀ F, tableFields t = .ok (some F) →
        blockStep st (.table t)
          = .ok ⟨st.header, updateFields n F st.amds, some n, st.collectingHeader⟩) := by
  have hlen1 : 1 < t.cols.length := by
    by_contra hcon
    have : t.cols.get? 1 = none := List.get?_eq_none.mpr (by omega)
    rw [this] at h1
    exact absurd h1 (by simp)
  constructor
  · rw [List.get?_eq_getElem?] at h0 h1 hc01 hc11
    simp [tableFields, hlen1, h0, hlen, hc01, h1, hc11, ptc_type_cell,
      ptc_original_cell, ptc_amended_cell]
  · intro F hF
    simp [blockStep, hcur, hF]

/-- Witness for the amended C1 at a concrete table and walk state. -/
theorem C1_table_extract_amended_witness :
    tableFields ⟨[[[], [[⟨"Type", false, false⟩]], [[⟨"a", false, false⟩, ⟨"b", true, true⟩]]],
        [[], [[⟨"Type", false, false⟩]], [[⟨"a", false, false⟩, ⟨"c", true, true⟩]]]]⟩
      = .ok (some ⟨"Type", "a [DEL]b[/DEL]", "Type", "a [ADD]c[/ADD]"⟩)
    ∧ blockStep ⟨[], [(5, ⟨["x"], none⟩)], some 5, false⟩
        (.table ⟨[[[], [[⟨"Type", false, false⟩]], [[⟨"a", false, false⟩, ⟨"b", true, true⟩]]],
          [[], [[⟨"Type", false, false⟩]], [[⟨"a", false, false⟩, ⟨"c", true, true⟩]]]]⟩)
      = .ok ⟨[], [(5, ⟨["x"],
          some ⟨"Type", "a [DEL]b[/DEL]", "Type", "a [ADD]c[/ADD]"⟩⟩)], some 5, false⟩ := by
  have h := C1_table_extract_amended
    ⟨[[[], [[⟨"Type", false, false⟩]], [[⟨"a", false, false⟩, ⟨"b", true, true⟩]]],
      [[], [[⟨"Type", false, false⟩]], [[⟨"a", false, false⟩, ⟨"c", true, true⟩]]]]⟩
    _ _ _ _ 5 ⟨[], [(5, ⟨["x"], none⟩)], some 5, false⟩
    rfl rfl (by decide) rfl rfl rfl
  exact ⟨h.1, h.2 _ h.1⟩

/-! ## Claim C2 -/

/-- Claim C2 counterexample: the claim prescribes the header Tag Map as the
Tag Parser's output on the newline-join of the paragraph texts; the code
joins the TRIMMED texts, and the two differ: with paragraphs
`"<A>x "` and `" y</A>"` the code yields `A = "x\ny"`, while the claim's
prescription yields `A = "x \n y"`. -/
theorem C2_no_numam_cex :
    parse_amendments [Block.para "<A>x ", Block.para " y</A>"]
      = .ok ⟨[("A", Val.s "x\ny")], []⟩
    ∧ parse_xml_tags ("<A>x " ++ "\n" ++ " y</A>") = [("A", Val.s "x \n y")]
    ∧ ¬ (Val.s "x\ny" = Val.s "x \n y") := by
  refine ⟨by decide, by decide, by decide⟩

/-- Claim C2 (amended): for a document in which no paragraph's trimmed text
matches the `<NumAm>` boundary pattern, `parse_amendments` returns normally
with an empty amendments mapping and a header Tag Map computed from the
newline-join of the trimmed top-level paragraph texts; tables contribute
nothing. -/
theorem C2_no_numam_amended (blocks : List Block)
    (hall : (paraTexts blocks).all (fun t => (findNumAm (pyStrip t)).isNone) = true) :
    parse_amendments blocks
      = .ok ⟨parse_xml_tags (joinSep "\n" ((paraTexts blocks).map pyStrip)), []⟩ := by
  simp only [parse_amendments, initState]
  rw [walk_header blocks [] hall]
  simp [processAmendments]

/-- Witness for the amended C2: a header-only document with a table. -/
theorem C2_no_numam_amended_witness :
    parse_amendments [Block.para "Committee: AGRI", Block.para "<Dossier>X1</Dossier>",
        Block.table ⟨[[[[⟨"z", true, true⟩]]]]⟩]
      = .ok ⟨[("Dossier", Val.s "X1")], []⟩ := by
  have h := C2_no_numam_amended [Block.para "Committee: AGRI",
    Block.para "<Dossier>X1</Dossier>", Block.table ⟨[[[[⟨"z", true, true⟩]]]]⟩] (by decide)
  exact h

/-! ## Claim C7 -/

/-- Claim C7: a table with fewer than two columns, or with two or fewer cells
in column 0, produces no fields and leaves the walk state unchanged; and on
any 2-D-grid (rectangular) table the Table Diff Extractor returns normally —
it never raises.  (The Tag Parser is a total function in this embedding.) -/
theorem C7_table_skip_total :
    (∀ t : Table, t.cols.length ≤ 1 → tableFields t = .ok none)
    ∧ (∀ (t : Table) (col0 : List Cell), t.cols.get? 0 = some col0 → col0.length ≤ 2 →
        tableFields t = .ok none)
    ∧ (∀ (st : WState) (tb : Table), tableFields tb = .ok none →
        blockStep st (.table tb) = .ok st)
    ∧ (∀ t : Table, Rect t → ∃ r, tableFields t = .ok r) := by
  refine ⟨?_, ?_, ?_, ?_⟩
  · intro t h
    simp [tableFields, show ¬ 1 < t.cols.length by omega]
  · intro t col0 h0 hle
    by_cases hl : 1 < t.cols.length
    · rw [List.get?_eq_getElem?] at h0
      simp [tableFields, hl, h0, show ¬ 2 < col0.length by omega]
    · simp [tableFields, hl]
  · intro st tb h
    cases hcur : st.current with
    | none => simp [blockStep, hcur]
    | some n => simp [blockStep, hcur, h]
  · intro t hrect
    by_cases h1 : 1 < t.cols.length
    · obtain ⟨col0, hg0⟩ : ∃ col0, t.cols.get? 0 = some col0 := by
        cases hg : t.cols.get? 0 with
        | none => have := List.get?_eq_none.mp hg; omega
        | some col0 => exact ⟨col0, rfl⟩
      by_cases h2 : 2 < col0.length
      · obtain ⟨col1, hg1⟩ : ∃ col1, t.cols.get? 1 = some col1 := by
          cases hg : t.cols.get? 1 with
          | none => have := List.get?_eq_none.mp hg; omega
          | some col1 => exact ⟨col1, rfl⟩
        have hmem0 : col0 ∈ t.cols := List.get?_mem hg0
        have hmem1 : col1 ∈ t.cols := List.get?_mem hg1
        have hlen1 : col1.length = col0.length := hrect col1 hmem1 col0 hmem0
        obtain ⟨c01, hc01⟩ : ∃ c, col0.get? 1 = some c := by
          cases hg : col0.get? 1 with
          | none => have := List.get?_eq_none.mp hg; omega
          | some c => exact ⟨c, rfl⟩
        obtain ⟨c11, hc11⟩ : ∃ c, col1.get? 1 = some c := by
          cases hg : col1.get? 1 with
          | none => have := List.get?_eq_none.mp hg; omega
          | some c => exact ⟨c, rfl⟩
        rw [List.get?_eq_getElem?] at hg0 hg1 hc01 hc11
        refine ⟨some ⟨process_table_cell c01 "",
          joinSep "\n" ((col0.drop 2).map (fun c => process_table_cell c "original")),
          process_table_cell c11 "",
          joinSep "\n" ((col1.drop 2).map (fun c => process_table_cell c "amended"))⟩, ?_⟩
        simp [tableFields, h1, hg0, h2, hg1, hc01, hc11]
      · rw [List.get?_eq_getElem?] at hg0
        exact ⟨none, by simp [tableFields, h1, hg0, h2]⟩
    · exact ⟨none, by simp [tableFields, h1]⟩

/-- Witness for C7: a one-column table is skipped and leaves the state
unchanged, and a rectangular table returns normally. -/
theorem C7_table_skip_total_witness :
    tableFields ⟨[[[], [], []]]⟩ = .ok none
    ∧ blockStep ⟨["h"], [(1, ⟨[], none⟩)], some 1, false⟩ (.table ⟨[[[], [], []]]⟩)
        = .ok ⟨["h"], [(1, ⟨[], none⟩)], some 1, false⟩
    ∧ ∃ r, tableFields ⟨[[[]], [[]]]⟩ = .ok r := by
  refine ⟨C7_table_skip_total.1 ⟨[[[], [], []]]⟩ (by decide), ?_, ?_⟩
  · exact C7_table_skip_total.2.2.1 _ _ (C7_table_skip_total.1 ⟨[[[], [], []]]⟩ (by decide))
  · exact C7_table_skip_total.2.2.2 ⟨[[[]], [[]]]⟩
      (by intro c1 h1 c2 h2; simp at h1 h2; simp [h1, h2])

/-! ## Claim C4 -/

/-- Claim C4 counterexample: the claim states the failure on a missing
`RepeatBlock-By` tag is a `MalformedAmendmentError` identifying the amendment
number.  The code raises a plain `KeyError` naming the missing key: documents
whose only amendments are numbered 7 and 8 produce the *identical* error, so
the error cannot identify the amendment number. -/
theorem C4_missing_by_cex :
    parse_amendments [Block.para "<NumAm>7</NumAm>", Block.para "x"]
      = .error (PErr.keyError "RepeatBlock-By")
    ∧ parse_amendments [Block.para "<NumAm>8</NumAm>", Block.para "x"]
      = .error (PErr.keyError "RepeatBlock-By") := by
  constructor
  · decide
  · decide

/-- Claim C4 (amended): an amendment region whose concatenated text yields no
`RepeatBlock-By` tag makes finalisation raise an uncaught `KeyError` naming
the missing key (the same error whatever the amendment number); the failure
is raised, not swallowed, and the whole parse aborts: no result is returned
for the document. -/
theorem C4_missing_by_amended (blocks : List Block) (st : WState)
    (hw : walkAux initState blocks = .ok st) (p : Nat × Acc) (hmem : p ∈ st.amds)
    (hnone : lookupKey "RepeatBlock-By" (parse_xml_tags (joinSep "\n" p.2.raw)) = none) :
    finalizeAmendment p.2 = .error (PErr.keyError "RepeatBlock-By")
    ∧ ∀ r, parse_amendments blocks ≠ .ok r := by
  have hfin : finalizeAmendment p.2 = .error (PErr.keyError "RepeatBlock-By") := by
    have hpre := lookupKey_RB_pre p.2.fields (parse_xml_tags (joinSep "\n" p.2.raw)) p.2.raw
    rw [hnone] at hpre
    simp only [finalizeAmendment]
    rw [hpre]
  refine ⟨hfin, ?_⟩
  intro r hok
  simp only [parse_amendments, hw] at hok
  cases hpa : processAmendments st.amds with
  | error e => rw [hpa] at hok; simp at hok
  | ok ams =>
    obtain ⟨m, hm⟩ := processAmendments_ok_mem st.amds ams hpa p hmem
    rw [hfin] at hm
    simp at hm

/-- Witness for the amended C4 at a concrete document. -/
theorem C4_missing_by_amended_witness :
    finalizeAmendment ⟨["x"], none⟩ = .error (PErr.keyError "RepeatBlock-By")
    ∧ parse_amendments [Block.para "<NumAm>7</NumAm>", Block.para "x"]
        ≠ .ok ⟨[], []⟩ := by
  have h := C4_missing_by_amended [Block.para "<NumAm>7</NumAm>", Block.para "x"]
    ⟨[], [(7, ⟨["x"], none⟩)], some 7, false⟩ (by decide) (7, ⟨["x"], none⟩)
    (by decide) (by decide)
  exact ⟨h.1, h.2 ⟨[], []⟩⟩

/-! ## Claim C5 -/

/-- Claim C5: for an amendment whose `RepeatBlock-By` tag value is a scalar
string, the finalized record's `By` field is the list obtained by deleting
the literal `<Members>`/`</Members>` substrings, splitting on commas, and
trimming each name; the raw `RepeatBlock-By` key is absent from the record. -/
theorem C5_by_splitting (acc : Acc) (v : String)
    (h : lookupKey "RepeatBlock-By" (parse_xml_tags (joinSep "\n" acc.raw))
      = some (Val.s v)) :
    (finalizeAmendment acc).toOption.map (fun m => lookupKey "By" m)
        = some (some (Val.l
          ((splitComma (pyReplace (pyReplace v "<Members>") "</Members>")).map pyStrip)))
    ∧ (finalizeAmendment acc).toOption.map (fun m => lookupKey "RepeatBlock-By" m)
        = some none := by
  have hpre := lookupKey_RB_pre acc.fields (parse_xml_tags (joinSep "\n" acc.raw)) acc.raw
  rw [h] at hpre
  simp only [finalizeAmendment]
  rw [hpre]
  cases hj : findSplit justMarker (joinSep "\n" acc.raw).data with
  | none =>
    simp only [hj, Except.toOption, Option.map]
    constructor
    · rw [lookupKey_eraseKey_ne _ _ _ (by decide), lookupKey_setKey_self]
    · rw [lookupKey_eraseKey_self]
  | some pr =>
    simp only [hj, Except.toOption, Option.map]
    constructor
    · rw [lookupKey_setKey_ne _ _ _ _ (by decide), lookupKey_eraseKey_ne _ _ _ (by decide),
        lookupKey_setKey_self]
    · rw [lookupKey_setKey_ne _ _ _ _ (by decide), lookupKey_eraseKey_self]

/-- Witness for C5: the spec's concrete author-splitting example. -/
theorem C5_by_splitting_witness :
    (finalizeAmendment ⟨["<RepeatBlock-By><Members>Jane Doe, John Smith</Members></RepeatBlock-By>"],
        none⟩).toOption.map (fun m => lookupKey "By" m)
      = some (some (Val.l ["Jane Doe", "John Smith"]))
    ∧ (finalizeAmendment ⟨["<RepeatBlock-By><Members>Jane Doe, John Smith</Members></RepeatBlock-By>"],
        none⟩).toOption.map (fun m => lookupKey "RepeatBlock-By" m)
      = some none := by
  have h := C5_by_splitting
    ⟨["<RepeatBlock-By><Members>Jane Doe, John Smith</Members></RepeatBlock-By>"], none⟩
    "<Members>Jane Doe, John Smith</Members>" (by decide)
  refine ⟨?_, h.2⟩
  rw [h.1]
  decide

/-! ## Claim C8 -/

/-- Claim C8 counterexample: the adjacent same-kind tag collapse is *not*
idempotent: on `"[/DEL] [/DEL] [DEL] [DEL]"` the first application removes the
middle `[/DEL] [DEL]` pair and thereby creates a new adjacency, which only a
second application removes, so applying it twice differs from applying it
once. -/
theorem C8_collapse_cex :
    ¬ (remove_unnec_tags (remove_unnec_tags "[/DEL] [/DEL] [DEL] [DEL]")
        = remove_unnec_tags "[/DEL] [/DEL] [DEL] [DEL]") := by
  decide

/-- Claim C8 (amended): the collapse normalization is idempotent on exactly
the strings whose normalized form contains no residual closing-tag /
whitespace / same-kind opening-tag adjacency: when `remove_unnec_tags s`
contains neither a `[/DEL]\s+[DEL]` nor a `[/ADD]\s+[ADD]` occurrence, a
second application leaves it unchanged.  (In general a removal can create a
new same-kind adjacency, so the normalization is not idempotent.) -/
theorem C8_collapse_amended (s : String)
    (h1 : hasCollapse ("[/DEL]".data) ("[DEL]".data) (remove_unnec_tags s).data = false)
    (h2 : hasCollapse ("[/ADD]".data) ("[ADD]".data) (remove_unnec_tags s).data = false) :
    remove_unnec_tags (remove_unnec_tags s) = remove_unnec_tags s := by
  have e1 : subCollapse "[/DEL]".data "[DEL]".data (remove_unnec_tags s).data
      = (remove_unnec_tags s).data :=
    subCollapseF_id _ _ _ _ h1
  have e2 : subCollapse "[/ADD]".data "[ADD]".data (remove_unnec_tags s).data
      = (remove_unnec_tags s).data :=
    subCollapseF_id _ _ _ _ h2
  show (⟨subCollapse "[/ADD]".data "[ADD]".data
      (subCollapse "[/DEL]".data "[DEL]".data (remove_unnec_tags s).data)⟩ : String)
    = remove_unnec_tags s
  rw [e1, e2]

/-- Witness for the amended C8 at a concrete input whose normalized form is
collapse-free. -/
theorem C8_collapse_amended_witness :
    remove_unnec_tags (remove_unnec_tags "[DEL]a[/DEL] [DEL]b[/DEL] x [ADD]y[/ADD]")
      = remove_unnec_tags "[DEL]a[/DEL] [DEL]b[/DEL] x [ADD]y[/ADD]" :=
  C8_collapse_amended "[DEL]a[/DEL] [DEL]b[/DEL] x [ADD]y[/ADD]" (by decide) (by decide)

/-! ## Claim C9 -/

/-- Claim C9 counterexample: the claim's consequence "the finalized amendment
record contains no NumAm key" fails: a *content* paragraph carrying
`<NumAm>abc</NumAm>` (content not 1-4 digits, hence not a boundary) is kept
in `raw_content`, and the Tag Parser then puts a `NumAm` key into the
record. -/
theorem C9_boundary_cex :
    parse_amendments [Block.para "<NumAm>1</NumAm>",
        Block.para "<NumAm>abc</NumAm><RepeatBlock-By>x</RepeatBlock-By>"]
      = .ok ⟨[], [(1, [("NumAm", Val.s "abc"),
          ("raw_content", Val.s "<NumAm>abc</NumAm><RepeatBlock-By>x</RepeatBlock-By>"),
          ("By", Val.l ["x"])])]⟩
    ∧ lookupKey "NumAm" [("NumAm", Val.s "abc"),
          ("raw_content", Val.s "<NumAm>abc</NumAm><RepeatBlock-By>x</RepeatBlock-By>"),
          ("By", Val.l ["x"])] = some (Val.s "abc") := by
  constructor
  · decide
  · decide

/-- Claim C9 (amended): a paragraph whose trimmed text matches the boundary
pattern is discarded whole: the walk step for it appends its text to no
buffer — it only marks collection, opens a fresh empty accumulator for the
captured number, and leaves the header and every other amendment's
accumulator unchanged.  (A `NumAm` key can still reach a record from a
non-boundary content paragraph whose `NumAm` tag content is not 1-4
digits.) -/
theorem C9_boundary_discard_amended (st : WState) (txt : String) (n : Nat)
    (h : findNumAm (pyStrip txt) = some n) :
    blockStep st (.para txt) = .ok ⟨st.header, setKey n initAcc st.amds, some n, false⟩
    ∧ (∀ m : Nat, m ≠ n → lookupKey m (setKey n initAcc st.amds) = lookupKey m st.amds)
    ∧ lookupKey n (setKey n initAcc st.amds) = some initAcc := by
  refine ⟨?_, ?_, lookupKey_setKey_self n initAcc st.amds⟩
  · simp [blockStep, paraStep, h]
  · intro m hm
    exact lookupKey_setKey_ne m n initAcc st.amds hm.symm

/-- Witness for the amended C9 at a concrete state and boundary paragraph. -/
theorem C9_boundary_discard_amended_witness :
    blockStep ⟨["h"], [(2, ⟨["y"], none⟩)], some 2, false⟩ (.para " <NumAm>7</NumAm> ")
      = .ok ⟨["h"], [(2, ⟨["y"], none⟩), (7, ⟨[], none⟩)], some 7, false⟩ := by
  have h := C9_boundary_discard_amended ⟨["h"], [(2, ⟨["y"], none⟩)], some 2, false⟩
    " <NumAm>7</NumAm> " 7 (by decide)
  exact h.1

/-! ## Claim C10 -/

/-- Claim C10: when an amendment region's concatenated text contains the
`RepeatBlock-By` tag pair two or more times, the Tag Parser promotes the
value to a list and the author-splitting step (string `replace` on the
value) fails with an exception — an `AttributeError`, a list having no
`replace` — even though the mandatory tag is present, aborting the whole
parse. -/
theorem C10_duplicate_by (blocks : List Block) (st : WState)
    (hw : walkAux initState blocks = .ok st) (p : Nat × Acc) (hmem : p ∈ st.amds)
    (vs : List String)
    (hlist : lookupKey "RepeatBlock-By" (parse_xml_tags (joinSep "\n" p.2.raw))
      = some (Val.l vs)) :
    finalizeAmendment p.2 = .error PErr.attributeError
    ∧ ∀ r, parse_amendments blocks ≠ .ok r := by
  have hfin : finalizeAmendment p.2 = .error PErr.attributeError := by
    have hpre := lookupKey_RB_pre p.2.fields (parse_xml_tags (joinSep "\n" p.2.raw)) p.2.raw
    rw [hlist] at hpre
    simp only [finalizeAmendment]
    rw [hpre]
  refine ⟨hfin, ?_⟩
  intro r hok
  simp only [parse_amendments, hw] at hok
  cases hpa : processAmendments st.amds with
  | error e => rw [hpa] at hok; simp at hok
  | ok ams =>
    obtain ⟨m, hm⟩ := processAmendments_ok_mem st.amds ams hpa p hmem
    rw [hfin] at hm
    simp at hm

/-- Witness for C10 at a concrete document with a duplicated author tag. -/
theorem C10_duplicate_by_witness :
    finalizeAmendment ⟨["<RepeatBlock-By>a</RepeatBlock-By>",
        "<RepeatBlock-By>b</RepeatBlock-By>"], none⟩ = .error PErr.attributeError
    ∧ parse_amendments [Block.para "<NumAm>3</NumAm>",
        Block.para "<RepeatBlock-By>a</RepeatBlock-By>",
        Block.para "<RepeatBlock-By>b</RepeatBlock-By>"] ≠ .ok ⟨[], []⟩ := by
  have h := C10_duplicate_by [Block.para "<NumAm>3</NumAm>",
      Block.para "<RepeatBlock-By>a</RepeatBlock-By>",
      Block.para "<RepeatBlock-By>b</RepeatBlock-By>"]
    ⟨[], [(3, ⟨["<RepeatBlock-By>a</RepeatBlock-By>",
      "<RepeatBlock-By>b</RepeatBlock-By>"], none⟩)], some 3, false⟩ (by decide)
    (3, ⟨["<RepeatBlock-By>a</RepeatBlock-By>", "<RepeatBlock-By>b</RepeatBlock-By>"], none⟩)
    (by decide) ["a", "b"] (by decide)
  exact ⟨h.1, h.2 ⟨[], []⟩⟩

end Amend
